import Mathlib

/-!
Verification of the constraint-propagation CNF satisfier
(`satisfier.py`, `pigeonhole_generator.py`).

Shallow embedding: Python dicts `Dict[int, VarState]` become association
lists `List (Int × VarState)` (insertion order preserved; `dict.get`
becomes first-match lookup with an `UNKNOWN` default). Mutation-and-copy
becomes pure value passing (`ConstraintSet.copy` is the identity on
values). `None` results become `Option.none`. Printing in `satisfy_cnf`
is a side effect with no influence on the returned value and is omitted.
-/

/-- `VarState` enum from satisfier.py. -/
inductive VarState where
  | UNKNOWN
  | MUST_TRUE
  | MUST_FALSE
  | CONFLICT
deriving DecidableEq, Repr

/-- A clause `(positive_literals, negative_literals)` as produced by
`gate_to_cnf_clauses` / `generate_pigeonhole`. -/
abbrev Clause := List Int × List Int

/-- The satisfying-assignment dictionary `Dict[int, bool]` returned by
`ConstraintSet.to_assignment`, as an association list. -/
abbrev Assignment := List (Int × Bool)

/-- `ConstraintSet.var_states : Dict[int, VarState]`. -/
structure ConstraintSet where
  var_states : List (Int × VarState)
deriving DecidableEq, Repr

/-- Dict assignment `d[var] = state`: replace the value at an existing key,
or append a new entry. -/
def listSet : List (Int × VarState) → Int → VarState → List (Int × VarState)
  | [], v, s => [(v, s)]
  | (k, old) :: rest, v, s =>
      if k = v then (v, s) :: rest else (k, old) :: listSet rest v s

/-- `ConstraintSet.get_state`: `self.var_states.get(var, VarState.UNKNOWN)`. -/
def ConstraintSet.get_state (c : ConstraintSet) (var : Int) : VarState :=
  match c.var_states.lookup var with
  | some s => s
  | none => VarState.UNKNOWN

/-- `ConstraintSet.copy`: a deep copy; on pure values, the identity. -/
def ConstraintSet.copy (c : ConstraintSet) : ConstraintSet := c

/-- `ConstraintSet.set_state`: sets the state (returning the updated set and
`True`) when the current state equals the requested one or is `UNKNOWN`;
otherwise records `CONFLICT` and returns `False`. -/
def ConstraintSet.set_state (c : ConstraintSet) (var : Int) (state : VarState) :
    ConstraintSet × Bool :=
  let current := c.get_state var
  if current = state ∨ current = VarState.UNKNOWN then
    (⟨listSet c.var_states var state⟩, true)
  else
    (⟨listSet c.var_states var VarState.CONFLICT⟩, false)

/-- Body of `ConstraintSet.to_assignment`: walk the entries, fail on
`CONFLICT`, send `MUST_TRUE` to `true`, `MUST_FALSE` to `false` and
`UNKNOWN` to the default `true`. The Python code walks the entries in
sorted key order; since the keys are distinct the resulting dictionary is
the same, so the embedding walks them in list order. -/
def toAssignmentGo : List (Int × VarState) → Option Assignment
  | [] => some []
  | (var, state) :: rest =>
      if state = VarState.CONFLICT then none
      else
        match toAssignmentGo rest with
        | none => none
        | some r =>
            some ((var,
              if state = VarState.MUST_TRUE then true
              else if state = VarState.MUST_FALSE then false
              else true) :: r)

/-- `ConstraintSet.to_assignment`. -/
def ConstraintSet.to_assignment (c : ConstraintSet) : Option Assignment :=
  toAssignmentGo c.var_states

/-- `propagate_clause`: if the clause is already satisfied return the
ancestor unchanged; otherwise branch, forcing in turn each positive
literal to `MUST_TRUE` and each negative literal to `MUST_FALSE`,
keeping a branch only when `set_state` succeeds. -/
def propagate_clause (clause : Clause) (constraints : ConstraintSet) :
    List ConstraintSet :=
  let pos_lits := clause.1
  let neg_lits := clause.2
  let current_state := constraints.copy
  if ∃ var ∈ pos_lits, current_state.get_state var = VarState.MUST_TRUE then
    [current_state]
  else if ∃ var ∈ neg_lits, current_state.get_state var = VarState.MUST_FALSE then
    [current_state]
  else
    (pos_lits.filterMap (fun var =>
      if current_state.get_state var ≠ VarState.MUST_FALSE then
        let r := current_state.copy.set_state var VarState.MUST_TRUE
        if r.2 then some r.1 else none
      else none)) ++
    (neg_lits.filterMap (fun var =>
      if current_state.get_state var ≠ VarState.MUST_TRUE then
        let r := current_state.copy.set_state var VarState.MUST_FALSE
        if r.2 then some r.1 else none
      else none))

/-- One frontier transition of `satisfy_cnf`: collect the propagations of
`clause` over every member of the frontier, in order. -/
def stepFrontier (frontier : List ConstraintSet) (clause : Clause) :
    List ConstraintSet :=
  (frontier.map (fun constraints => propagate_clause clause constraints)).flatten

/-- The loop of `satisfy_cnf`: process each clause, returning `none` as
soon as the frontier empties, and finalizing the first surviving
constraint set after the last clause. The `([], [])` case is unreachable
from `satisfy_cnf` (the frontier is checked nonempty before every
recursive call, and is nonempty initially). -/
def satisfyGo : List Clause → List ConstraintSet → Option Assignment
  | [], possible_constraints =>
      match possible_constraints with
      | [] => none
      | c :: _ => c.to_assignment
  | clause :: rest, possible_constraints =>
      let new_constraints := stepFrontier possible_constraints clause
      if new_constraints.isEmpty then none
      else satisfyGo rest new_constraints

/-- `satisfy_cnf`: empty formula short-circuits to the empty assignment;
otherwise fold the propagation over the clauses starting from the single
empty constraint set. -/
def satisfy_cnf (clauses : List Clause) : Option Assignment :=
  if clauses.isEmpty then some []
  else satisfyGo clauses [⟨[]⟩]

/-- The frontier after processing a list of clauses (no early exit; used to
state the frontier-emptying claims). -/
def frontierAfter (clauses : List Clause) : List ConstraintSet :=
  clauses.foldl stepFrontier [⟨[]⟩]

/-- Python `range(a, b + 1)` over integers, i.e. the integers from `a` to
`b` inclusive, in increasing order. -/
def rangeIcc (a b : Int) : List Int :=
  (List.range (b + 1 - a).toNat).map (fun (k : Nat) => a + (k : Int))

/-- `generate_pigeonhole` from pigeonhole_generator.py: for each pigeon a
clause saying it sits in at least one hole (all positive literals), then
for each hole and each pair of pigeons a clause saying they do not share
it (all negative literals). Variable `(p-1)*holes + h` means pigeon `p`
is in hole `h`. -/
def generate_pigeonhole (pigeons holes : Int) : List Clause :=
  let pigeonClauses := (rangeIcc 1 pigeons).map (fun p =>
    ((rangeIcc 1 holes).map (fun h => (p - 1) * holes + h), ([] : List Int)))
  let holeClauses := ((rangeIcc 1 holes).map (fun h =>
    (((rangeIcc 1 (pigeons - 1)).map (fun p1 =>
      (rangeIcc (p1 + 1) pigeons).map (fun p2 =>
        (([] : List Int), [(p1 - 1) * holes + h, (p2 - 1) * holes + h])))).flatten))).flatten
  pigeonClauses ++ holeClauses

/-- The `Gate` tree from satisfier.py: a node tag, child gates, and the
input index. The `label` field is display-only and omitted; `index`
defaults to `0` (standing for Python's `None`, which none of the
modelled code paths distinguish from an integer) on non-INPUT gates. -/
inductive Gate where
  | mk : String → List Gate → Int → Gate

/-- `Gate.gate_type`. -/
def Gate.gate_type : Gate → String
  | .mk t _ _ => t

/-- `Gate.inputs`. -/
def Gate.inputs : Gate → List Gate
  | .mk _ i _ => i

/-- `Gate.index`. -/
def Gate.index : Gate → Int
  | .mk _ _ n => n

/-- The Python exceptions `gate_to_cnf_clauses` can raise: a `ValueError`
with its message, or the `IndexError` coming from `literal.inputs[0]` on a
NOT gate with no inputs. -/
inductive PyErr where
  | valueError : String → PyErr
  | indexError : PyErr
deriving DecidableEq, Repr

/-- The inner literal loop of `gate_to_cnf_clauses`, accumulating
`positive_literals` and `negative_literals` in iteration order. A NOT
gate reads `literal.inputs[0]` (IndexError when absent), demands it be an
INPUT, and records its index; an INPUT gate records its own index; any
other tag is a ValueError. -/
def processLiterals : List Gate → List Int → List Int → Except PyErr Clause
  | [], posAcc, negAcc => Except.ok (posAcc, negAcc)
  | literal :: rest, posAcc, negAcc =>
      if literal.gate_type = "INPUT" then
        processLiterals rest (posAcc ++ [literal.index]) negAcc
      else if literal.gate_type = "NOT" then
        match literal.inputs with
        | [] => Except.error PyErr.indexError
        | first :: _ =>
            if first.gate_type ≠ "INPUT" then
              Except.error (PyErr.valueError
                "Negation can only be applied to input variables in CNF")
            else processLiterals rest posAcc (negAcc ++ [first.index])
      else Except.error (PyErr.valueError "Invalid literal type in CNF clause")

/-- The outer clause loop of `gate_to_cnf_clauses`: each child must be an
OR gate, whose literals are converted in order. -/
def processClauses : List Gate → Except PyErr (List Clause)
  | [] => Except.ok []
  | clause :: rest =>
      if clause.gate_type ≠ "OR" then
        Except.error (PyErr.valueError "Second level gates must be OR for CNF form")
      else
        match processLiterals clause.inputs [] [] with
        | Except.error e => Except.error e
        | Except.ok pair =>
            match processClauses rest with
            | Except.error e => Except.error e
            | Except.ok others => Except.ok (pair :: others)

/-- `gate_to_cnf_clauses` from satisfier.py. -/
def gate_to_cnf_clauses (circuit : Gate) : Except PyErr (List Clause) :=
  if circuit.gate_type ≠ "AND" then
    Except.error (PyErr.valueError "Top level gate must be AND for CNF form")
  else processClauses circuit.inputs

/-- A clause is satisfied by a returned assignment dictionary: some
positive literal's variable is mapped to `true`, or some negative
literal's variable is mapped to `false`. -/
def clauseSatisfied (m : Assignment) (cl : Clause) : Prop :=
  (∃ v ∈ cl.1, m.lookup v = some true) ∨ (∃ v ∈ cl.2, m.lookup v = some false)

/-- A clause is satisfied by a total boolean assignment. -/
def satisfiesClause (A : Int → Bool) (cl : Clause) : Prop :=
  (∃ v ∈ cl.1, A v = true) ∨ (∃ v ∈ cl.2, A v = false)

/-- A constraint set forces a clause: some positive literal is
`MUST_TRUE`, or some negative literal is `MUST_FALSE`. -/
def holdsClause (c : ConstraintSet) (cl : Clause) : Prop :=
  (∃ v ∈ cl.1, c.get_state v = VarState.MUST_TRUE) ∨
  (∃ v ∈ cl.2, c.get_state v = VarState.MUST_FALSE)

/-- No entry of the constraint dictionary is `CONFLICT`. -/
def conflictFreeCS (c : ConstraintSet) : Prop :=
  ∀ q ∈ c.var_states, q.2 ≠ VarState.CONFLICT

/-- `c` extends `a`: every variable `a` forces is forced the same way
in `c`. -/
def extendsForced (a c : ConstraintSet) : Prop :=
  ∀ v, (a.get_state v = VarState.MUST_TRUE → c.get_state v = VarState.MUST_TRUE) ∧
    (a.get_state v = VarState.MUST_FALSE → c.get_state v = VarState.MUST_FALSE)

/-- A constraint set is consistent with a total assignment. -/
def consistentWith (c : ConstraintSet) (A : Int → Bool) : Prop :=
  ∀ v, (c.get_state v = VarState.MUST_TRUE → A v = true) ∧
    (c.get_state v = VarState.MUST_FALSE → A v = false)

/-- A variable is mentioned by some clause of a formula. -/
def mentionedIn (v : Int) (clauses : List Clause) : Prop :=
  ∃ cl ∈ clauses, v ∈ cl.1 ∨ v ∈ cl.2

/-- The value `to_assignment` gives a recorded state: `MUST_TRUE ↦ true`,
`MUST_FALSE ↦ false`, `UNKNOWN ↦ true` (the default). -/
def stateDefault (s : VarState) : Bool :=
  if s = VarState.MUST_TRUE then true
  else if s = VarState.MUST_FALSE then false
  else true

/-- A literal that the clause loop of `gate_to_cnf_clauses` accepts: an
INPUT gate, or a NOT gate whose first input is an INPUT gate. -/
def goodLiteral (g : Gate) : Bool :=
  if g.gate_type = "INPUT" then true
  else if g.gate_type = "NOT" then
    match g.inputs with
    | [] => false
    | first :: _ => if first.gate_type = "INPUT" then true else false
  else false

/-- The structural violation condition of C9: the top gate is not an AND,
or some child is not an OR, or some child of an OR is not an accepted
literal. -/
def malformedCnf (g : Gate) : Bool :=
  if g.gate_type = "AND" then
    g.inputs.any (fun cl =>
      if cl.gate_type = "OR" then cl.inputs.any (fun l => !goodLiteral l) else true)
  else true

/-- Stated from the spec for comparison with `gate_to_cnf_clauses`: the
(positive-variables, negative-variables) pair a well-formed OR clause
converts to, in child order. -/
def clausePairOf (cl : Gate) : Clause :=
  (cl.inputs.filterMap (fun l =>
    if l.gate_type = "INPUT" then some l.index else none),
   cl.inputs.filterMap (fun l =>
    if l.gate_type = "NOT" then (l.inputs.head?).map Gate.index else none))

theorem lookup_cons_eq_if {β : Type} (w k : Int) (val : β) (rest : List (Int × β)) :
    List.lookup w ((k, val) :: rest) = if w = k then some val else List.lookup w rest := by
  by_cases h : w = k
  · subst h
    simp [List.lookup_cons]
  · simp [List.lookup_cons, beq_false_of_ne h, h]

theorem lookup_listSet (l : List (Int × VarState)) (v : Int) (s : VarState)
    (w : Int) : (listSet l v s).lookup w = if w = v then some s else l.lookup w := by
  induction l with
  | nil =>
      by_cases h : w = v <;> simp [listSet, lookup_cons_eq_if, h]
  | cons q rest ih =>
      obtain ⟨k, old⟩ := q
      by_cases hk : k = v
      · subst hk
        by_cases h : w = k <;> simp [listSet, lookup_cons_eq_if, h]
      · by_cases h : w = k
        · subst h
          simp [listSet, hk, lookup_cons_eq_if, Ne.symm hk]
        · simp [listSet, hk, lookup_cons_eq_if, h, ih]

theorem get_state_listSet (l : List (Int × VarState)) (v : Int) (s : VarState)
    (w : Int) : ConstraintSet.get_state ⟨listSet l v s⟩ w =
      if w = v then s else ConstraintSet.get_state ⟨l⟩ w := by
  unfold ConstraintSet.get_state
  rw [lookup_listSet]
  by_cases h : w = v <;> simp [h]

theorem mem_listSet (l : List (Int × VarState)) (v : Int) (s : VarState)
    (q : Int × VarState) (hq : q ∈ listSet l v s) : q = (v, s) ∨ q ∈ l := by
  induction l with
  | nil => simpa [listSet] using hq
  | cons p rest ih =>
      obtain ⟨k, old⟩ := p
      by_cases hk : k = v
      · subst hk
        rcases (by simpa [listSet] using hq : q = (k, s) ∨ q ∈ rest) with h | h
        · exact Or.inl h
        · exact Or.inr (List.mem_cons_of_mem _ h)
      · rcases (by simpa [listSet, hk] using hq : q = (k, old) ∨ q ∈ listSet rest v s) with h | h
        · exact Or.inr (by simp [h])
        · rcases ih h with h' | h'
          · exact Or.inl h'
          · exact Or.inr (List.mem_cons_of_mem _ h')

theorem lookup_mem {l : List (Int × VarState)} {v : Int} {s : VarState}
    (h : l.lookup v = some s) : (v, s) ∈ l := by
  induction l with
  | nil => simp [List.lookup] at h
  | cons q rest ih =>
      obtain ⟨k, val⟩ := q
      rw [lookup_cons_eq_if] at h
      by_cases hk : v = k
      · subst hk
        simp at h
        simp [h]
      · rw [if_neg hk] at h
        exact List.mem_cons_of_mem _ (ih h)

theorem get_state_ne_conflict {c : ConstraintSet} (hc : conflictFreeCS c)
    (v : Int) : c.get_state v ≠ VarState.CONFLICT := by
  unfold ConstraintSet.get_state
  cases hl : c.var_states.lookup v with
  | none => simp
  | some s =>
      have := hc _ (lookup_mem hl)
      simpa using this

theorem toAssignmentGo_lookup {l : List (Int × VarState)} {m : Assignment}
    (h : toAssignmentGo l = some m) (v : Int) :
    m.lookup v = (l.lookup v).map stateDefault := by
  induction l generalizing m with
  | nil =>
      simp [toAssignmentGo] at h
      subst h
      simp [List.lookup]
  | cons q rest ih =>
      obtain ⟨var, state⟩ := q
      simp only [toAssignmentGo] at h
      by_cases hcf : state = VarState.CONFLICT
      · simp [hcf] at h
      · rw [if_neg hcf] at h
        cases hrest : toAssignmentGo rest with
        | none => rw [hrest] at h; exact absurd h (by simp)
        | some r =>
            rw [hrest] at h
            simp only [Option.some.injEq] at h
            subst h
            rw [lookup_cons_eq_if, lookup_cons_eq_if]
            by_cases hv : v = var
            · simp [hv, stateDefault]
            · simp only [if_neg hv]
              exact ih hrest

theorem toAssignmentGo_isSome {l : List (Int × VarState)}
    (h : ∀ q ∈ l, q.2 ≠ VarState.CONFLICT) : ∃ m, toAssignmentGo l = some m := by
  induction l with
  | nil => exact ⟨[], rfl⟩
  | cons q rest ih =>
      obtain ⟨var, state⟩ := q
      obtain ⟨r, hr⟩ := ih (fun q hq => h q (List.mem_cons_of_mem _ hq))
      refine ⟨(var, if state = VarState.MUST_TRUE then true
        else if state = VarState.MUST_FALSE then false else true) :: r, ?_⟩
      simp only [toAssignmentGo]
      rw [if_neg (by simpa using h (var, state) (by simp)), hr]

theorem toAssignmentGo_keys {l : List (Int × VarState)} {m : Assignment}
    (h : toAssignmentGo l = some m) : ∀ q ∈ m, ∃ s, (q.1, s) ∈ l := by
  induction l generalizing m with
  | nil =>
      simp [toAssignmentGo] at h
      subst h
      simp
  | cons p rest ih =>
      obtain ⟨var, state⟩ := p
      simp only [toAssignmentGo] at h
      by_cases hcf : state = VarState.CONFLICT
      · simp [hcf] at h
      · rw [if_neg hcf] at h
        cases hrest : toAssignmentGo rest with
        | none => rw [hrest] at h; exact absurd h (by simp)
        | some r =>
            rw [hrest] at h
            simp only [Option.some.injEq] at h
            subst h
            intro q hq
            rcases List.mem_cons.mp hq with hq | hq
            · exact ⟨state, by simp [hq]⟩
            · obtain ⟨s, hs⟩ := ih hrest q hq
              exact ⟨s, List.mem_cons_of_mem _ hs⟩

theorem set_state_eq (c : ConstraintSet) (v : Int) (state : VarState) :
    c.set_state v state =
      if c.get_state v = state ∨ c.get_state v = VarState.UNKNOWN then
        (⟨listSet c.var_states v state⟩, true)
      else (⟨listSet c.var_states v VarState.CONFLICT⟩, false) := rfl

theorem propagate_clause_of_holds {cl : Clause} {c : ConstraintSet}
    (h : holdsClause c cl) : propagate_clause cl c = [c] := by
  unfold holdsClause at h
  by_cases h1 : ∃ v ∈ cl.1, c.get_state v = VarState.MUST_TRUE
  · simp only [propagate_clause, ConstraintSet.copy]
    rw [if_pos h1]
  · have h2 : ∃ v ∈ cl.2, c.get_state v = VarState.MUST_FALSE := h.resolve_left h1
    simp only [propagate_clause, ConstraintSet.copy]
    rw [if_neg h1, if_pos h2]

theorem propagate_mem_cases {cl : Clause} {c d : ConstraintSet}
    (hd : d ∈ propagate_clause cl c) :
    (holdsClause c cl ∧ d = c) ∨
    (¬ holdsClause c cl ∧
      ((∃ v ∈ cl.1,
          (c.get_state v = VarState.MUST_TRUE ∨ c.get_state v = VarState.UNKNOWN) ∧
          d = ⟨listSet c.var_states v VarState.MUST_TRUE⟩) ∨
       (∃ v ∈ cl.2,
          (c.get_state v = VarState.MUST_FALSE ∨ c.get_state v = VarState.UNKNOWN) ∧
          d = ⟨listSet c.var_states v VarState.MUST_FALSE⟩))) := by
  simp only [propagate_clause, ConstraintSet.copy] at hd
  by_cases h1 : ∃ v ∈ cl.1, c.get_state v = VarState.MUST_TRUE
  · rw [if_pos h1] at hd
    exact Or.inl ⟨Or.inl h1, by simpa using hd⟩
  · rw [if_neg h1] at hd
    by_cases h2 : ∃ v ∈ cl.2, c.get_state v = VarState.MUST_FALSE
    · rw [if_pos h2] at hd
      exact Or.inl ⟨Or.inr h2, by simpa using hd⟩
    · rw [if_neg h2] at hd
      have hna : ¬ holdsClause c cl := by
        intro h
        unfold holdsClause at h
        exact h.elim h1 h2
      refine Or.inr ⟨hna, ?_⟩
      rcases List.mem_append.mp hd with hmem | hmem
      · left
        obtain ⟨v, hv, hfv⟩ := List.mem_filterMap.mp hmem
        refine ⟨v, hv, ?_⟩
        simp only [set_state_eq] at hfv
        split at hfv
        · split at hfv
          · rename_i hmf hr
            simp at hfv
            exact ⟨hr, hfv.symm⟩
          · rename_i hmf hr
            exact absurd hfv (by simp)
        · exact absurd hfv (by simp)
      · right
        obtain ⟨v, hv, hfv⟩ := List.mem_filterMap.mp hmem
        refine ⟨v, hv, ?_⟩
        simp only [set_state_eq] at hfv
        split at hfv
        · split at hfv
          · rename_i hmf hr
            simp at hfv
            exact ⟨hr, hfv.symm⟩
          · rename_i hmf hr
            exact absurd hfv (by simp)
        · exact absurd hfv (by simp)

theorem extendsForced_refl (c : ConstraintSet) : extendsForced c c :=
  fun _ => ⟨id, id⟩

theorem extendsForced_trans {a b c : ConstraintSet} (hab : extendsForced a b)
    (hbc : extendsForced b c) : extendsForced a c :=
  fun v => ⟨fun h => (hbc v).1 ((hab v).1 h), fun h => (hbc v).2 ((hab v).2 h)⟩

theorem extendsForced_listSet {c : ConstraintSet} {v : Int} {s : VarState}
    (h : c.get_state v = s ∨ c.get_state v = VarState.UNKNOWN) :
    extendsForced c ⟨listSet c.var_states v s⟩ := by
  intro w
  constructor <;> intro hw <;> rw [get_state_listSet] <;> by_cases hwv : w = v
  · rw [if_pos hwv]
    subst hwv
    rcases h with h | h
    · rw [← h, hw]
    · rw [hw] at h
      cases h
  · rw [if_neg hwv]
    exact hw
  · rw [if_pos hwv]
    subst hwv
    rcases h with h | h
    · rw [← h, hw]
    · rw [hw] at h
      cases h
  · rw [if_neg hwv]
    exact hw

theorem holdsClause_mono {b c : ConstraintSet} {cl : Clause}
    (hbc : extendsForced b c) (hb : holdsClause b cl) : holdsClause c cl := by
  unfold holdsClause at hb ⊢
  rcases hb with ⟨v, hv, hs⟩ | ⟨v, hv, hs⟩
  · exact Or.inl ⟨v, hv, (hbc v).1 hs⟩
  · exact Or.inr ⟨v, hv, (hbc v).2 hs⟩

theorem propagate_extendsForced {cl : Clause} {c d : ConstraintSet}
    (hd : d ∈ propagate_clause cl c) : extendsForced c d := by
  rcases propagate_mem_cases hd with ⟨_, rfl⟩ | ⟨_, hcase⟩
  · exact extendsForced_refl _
  · rcases hcase with ⟨v, _, hok, rfl⟩ | ⟨v, _, hok, rfl⟩
    · exact extendsForced_listSet hok
    · exact extendsForced_listSet hok

theorem propagate_holdsClause {cl : Clause} {c d : ConstraintSet}
    (hd : d ∈ propagate_clause cl c) : holdsClause d cl := by
  rcases propagate_mem_cases hd with ⟨hh, rfl⟩ | ⟨_, hcase⟩
  · exact hh
  · unfold holdsClause
    rcases hcase with ⟨v, hv, _, rfl⟩ | ⟨v, hv, _, rfl⟩
    · exact Or.inl ⟨v, hv, by rw [get_state_listSet, if_pos rfl]⟩
    · exact Or.inr ⟨v, hv, by rw [get_state_listSet, if_pos rfl]⟩

theorem conflictFreeCS_listSet {c : ConstraintSet} {v : Int} {s : VarState}
    (hc : conflictFreeCS c) (hs : s ≠ VarState.CONFLICT) :
    conflictFreeCS ⟨listSet c.var_states v s⟩ := by
  intro q hq
  rcases mem_listSet _ _ _ _ hq with h | h
  · rw [h]
    exact hs
  · exact hc q h

theorem propagate_conflictFree {cl : Clause} {c d : ConstraintSet}
    (hc : conflictFreeCS c) (hd : d ∈ propagate_clause cl c) : conflictFreeCS d := by
  rcases propagate_mem_cases hd with ⟨_, rfl⟩ | ⟨_, hcase⟩
  · exact hc
  · rcases hcase with ⟨v, _, _, rfl⟩ | ⟨v, _, _, rfl⟩
    · exact conflictFreeCS_listSet hc (by simp)
    · exact conflictFreeCS_listSet hc (by simp)

theorem propagate_keys {cl : Clause} {c d : ConstraintSet}
    (hd : d ∈ propagate_clause cl c) :
    ∀ q ∈ d.var_states, q ∈ c.var_states ∨ q.1 ∈ cl.1 ∨ q.1 ∈ cl.2 := by
  rcases propagate_mem_cases hd with ⟨_, rfl⟩ | ⟨_, hcase⟩
  · exact fun q hq => Or.inl hq
  · rcases hcase with ⟨v, hv, _, rfl⟩ | ⟨v, hv, _, rfl⟩
    · intro q hq
      rcases mem_listSet _ _ _ _ hq with h | h
      · rw [h]
        exact Or.inr (Or.inl hv)
      · exact Or.inl h
    · intro q hq
      rcases mem_listSet _ _ _ _ hq with h | h
      · rw [h]
        exact Or.inr (Or.inr hv)
      · exact Or.inl h

theorem mem_propagate_pos {cl : Clause} {c : ConstraintSet} {v : Int}
    (hna : ¬ holdsClause c cl) (hv : v ∈ cl.1)
    (hok : c.get_state v = VarState.MUST_TRUE ∨ c.get_state v = VarState.UNKNOWN) :
    (⟨listSet c.var_states v VarState.MUST_TRUE⟩ : ConstraintSet) ∈
      propagate_clause cl c := by
  have h1 : ¬ ∃ w ∈ cl.1, c.get_state w = VarState.MUST_TRUE :=
    fun h => hna (Or.inl h)
  have h2 : ¬ ∃ w ∈ cl.2, c.get_state w = VarState.MUST_FALSE :=
    fun h => hna (Or.inr h)
  simp only [propagate_clause, ConstraintSet.copy]
  rw [if_neg h1, if_neg h2]
  apply List.mem_append_left
  apply List.mem_filterMap.mpr
  refine ⟨v, hv, ?_⟩
  have hmf : c.get_state v ≠ VarState.MUST_FALSE := by
    rcases hok with h | h <;> simp [h]
  rw [if_pos hmf]
  simp only [set_state_eq]
  rw [if_pos hok]
  simp

theorem mem_propagate_neg {cl : Clause} {c : ConstraintSet} {v : Int}
    (hna : ¬ holdsClause c cl) (hv : v ∈ cl.2)
    (hok : c.get_state v = VarState.MUST_FALSE ∨ c.get_state v = VarState.UNKNOWN) :
    (⟨listSet c.var_states v VarState.MUST_FALSE⟩ : ConstraintSet) ∈
      propagate_clause cl c := by
  have h1 : ¬ ∃ w ∈ cl.1, c.get_state w = VarState.MUST_TRUE :=
    fun h => hna (Or.inl h)
  have h2 : ¬ ∃ w ∈ cl.2, c.get_state w = VarState.MUST_FALSE :=
    fun h => hna (Or.inr h)
  simp only [propagate_clause, ConstraintSet.copy]
  rw [if_neg h1, if_neg h2]
  apply List.mem_append_right
  apply List.mem_filterMap.mpr
  refine ⟨v, hv, ?_⟩
  have hmt : c.get_state v ≠ VarState.MUST_TRUE := by
    rcases hok with h | h <;> simp [h]
  rw [if_pos hmt]
  simp only [set_state_eq]
  rw [if_pos hok]
  simp

theorem mem_stepFrontier {frontier : List ConstraintSet} {cl : Clause}
    {d : ConstraintSet} :
    d ∈ stepFrontier frontier cl ↔ ∃ a ∈ frontier, d ∈ propagate_clause cl a := by
  simp [stepFrontier]

theorem satisfyGo_sound : ∀ (rest : List Clause) (frontier : List ConstraintSet)
    (m : Assignment), satisfyGo rest frontier = some m →
    ∃ a c : ConstraintSet, a ∈ frontier ∧ c.to_assignment = some m ∧
      (∀ cl ∈ rest, holdsClause c cl) ∧ extendsForced a c ∧
      (∀ q ∈ c.var_states, q ∈ a.var_states ∨ mentionedIn q.1 rest) := by
  intro rest
  induction rest with
  | nil =>
      intro frontier m h
      cases frontier with
      | nil => simp [satisfyGo] at h
      | cons c rest' =>
          simp only [satisfyGo] at h
          exact ⟨c, c, by simp, h, by simp, extendsForced_refl c, fun q hq => Or.inl hq⟩
  | cons cl rest ih =>
      intro frontier m h
      simp only [satisfyGo] at h
      by_cases he : (stepFrontier frontier cl).isEmpty
      · rw [if_pos he] at h
        cases h
      · rw [if_neg he] at h
        obtain ⟨b, c, hb, hassign, hholds, hext, hkeys⟩ := ih (stepFrontier frontier cl) m h
        obtain ⟨a, ha, hba⟩ := mem_stepFrontier.mp hb
        refine ⟨a, c, ha, hassign, ?_,
          extendsForced_trans (propagate_extendsForced hba) hext, ?_⟩
        · intro cl' hcl'
          rcases List.mem_cons.mp hcl' with rfl | hcl'
          · exact holdsClause_mono hext (propagate_holdsClause hba)
          · exact hholds cl' hcl'
        · intro q hq
          rcases hkeys q hq with hq' | hq'
          · rcases propagate_keys hba q hq' with h' | h'
            · exact Or.inl h'
            · refine Or.inr ?_
              unfold mentionedIn
              exact ⟨cl, by simp, h'⟩
          · refine Or.inr ?_
            unfold mentionedIn at hq' ⊢
            obtain ⟨cl', hcl', hvar⟩ := hq'
            exact ⟨cl', List.mem_cons_of_mem _ hcl', hvar⟩

theorem satisfyGo_complete : ∀ (rest : List Clause) (frontier : List ConstraintSet)
    (A : Int → Bool), (∀ cl ∈ rest, satisfiesClause A cl) →
    (∀ c ∈ frontier, conflictFreeCS c) →
    (∃ c ∈ frontier, consistentWith c A) →
    ∃ m, satisfyGo rest frontier = some m := by
  intro rest
  induction rest with
  | nil =>
      intro frontier A _ hcf hex
      obtain ⟨c, hc, _⟩ := hex
      cases frontier with
      | nil => cases hc
      | cons c0 rest' =>
          obtain ⟨m, hm⟩ := toAssignmentGo_isSome (hcf c0 (by simp))
          exact ⟨m, by simpa [satisfyGo, ConstraintSet.to_assignment] using hm⟩
  | cons cl rest ih =>
      intro frontier A hsat hcf hex
      obtain ⟨c, hc, hcons⟩ := hex
      have hdesc : ∃ d ∈ propagate_clause cl c, consistentWith d A := by
        by_cases hh : holdsClause c cl
        · refine ⟨c, ?_, hcons⟩
          rw [propagate_clause_of_holds hh]
          simp
        · have hsatcl := hsat cl (by simp)
          unfold satisfiesClause at hsatcl
          rcases hsatcl with ⟨v, hv, hA⟩ | ⟨v, hv, hA⟩
          · have hok : c.get_state v = VarState.MUST_TRUE ∨
                c.get_state v = VarState.UNKNOWN := by
              cases hst : c.get_state v
              · exact Or.inr rfl
              · exact Or.inl rfl
              · have := (hcons v).2 hst
                rw [hA] at this
                cases this
              · exact absurd hst (get_state_ne_conflict (hcf c hc) v)
            refine ⟨_, mem_propagate_pos hh hv hok, ?_⟩
            intro w
            constructor <;> intro hw <;> rw [get_state_listSet] at hw
            · by_cases hwv : w = v
              · rw [hwv]
                exact hA
              · rw [if_neg hwv] at hw
                exact (hcons w).1 hw
            · by_cases hwv : w = v
              · rw [if_pos hwv] at hw
                cases hw
              · rw [if_neg hwv] at hw
                exact (hcons w).2 hw
          · have hok : c.get_state v = VarState.MUST_FALSE ∨
                c.get_state v = VarState.UNKNOWN := by
              cases hst : c.get_state v
              · exact Or.inr rfl
              · have := (hcons v).1 hst
                rw [hA] at this
                cases this
              · exact Or.inl rfl
              · exact absurd hst (get_state_ne_conflict (hcf c hc) v)
            refine ⟨_, mem_propagate_neg hh hv hok, ?_⟩
            intro w
            constructor <;> intro hw <;> rw [get_state_listSet] at hw
            · by_cases hwv : w = v
              · rw [if_pos hwv] at hw
                cases hw
              · rw [if_neg hwv] at hw
                exact (hcons w).1 hw
            · by_cases hwv : w = v
              · rw [hwv]
                exact hA
              · rw [if_neg hwv] at hw
                exact (hcons w).2 hw
      obtain ⟨d, hd, hdcons⟩ := hdesc
      have hdmem : d ∈ stepFrontier frontier cl := mem_stepFrontier.mpr ⟨c, hc, hd⟩
      have hne : ¬ (stepFrontier frontier cl).isEmpty := by
        intro h0
        rw [List.isEmpty_iff] at h0
        rw [h0] at hdmem
        cases hdmem
      have hcf' : ∀ e ∈ stepFrontier frontier cl, conflictFreeCS e := by
        intro e he
        obtain ⟨a, ha, hea⟩ := mem_stepFrontier.mp he
        exact propagate_conflictFree (hcf a ha) hea
      obtain ⟨m, hm⟩ := ih (stepFrontier frontier cl) A
        (fun cl' h' => hsat cl' (List.mem_cons_of_mem _ h')) hcf' ⟨d, hdmem, hdcons⟩
      refine ⟨m, ?_⟩
      simp only [satisfyGo]
      rw [if_neg hne]
      exact hm

theorem foldl_stepFrontier_conflictFree :
    ∀ (cls : List Clause) (frontier : List ConstraintSet),
    (∀ c ∈ frontier, conflictFreeCS c) →
    ∀ c ∈ cls.foldl stepFrontier frontier, conflictFreeCS c := by
  intro cls
  induction cls with
  | nil => intro frontier h c hc; exact h c hc
  | cons cl rest ih =>
      intro frontier h c hc
      refine ih (stepFrontier frontier cl) ?_ c hc
      intro e he
      obtain ⟨a, ha, hea⟩ := mem_stepFrontier.mp he
      exact propagate_conflictFree (h a ha) hea

theorem emptyCS_conflictFree : conflictFreeCS ⟨[]⟩ := by
  intro q hq
  cases hq

theorem foldl_stepFrontier_nil : ∀ (cls : List Clause),
    cls.foldl stepFrontier [] = [] := by
  intro cls
  induction cls with
  | nil => rfl
  | cons cl rest ih =>
      show rest.foldl stepFrontier (stepFrontier [] cl) = []
      rw [show stepFrontier [] cl = [] from rfl]
      exact ih

theorem satisfyGo_none_iff : ∀ (cls : List Clause) (frontier : List ConstraintSet),
    frontier ≠ [] → (∀ c ∈ frontier, conflictFreeCS c) →
    (satisfyGo cls frontier = none ↔
      ∃ i < cls.length, (cls.take (i + 1)).foldl stepFrontier frontier = []) := by
  intro cls
  induction cls with
  | nil =>
      intro frontier hne hcf
      constructor
      · intro h
        cases frontier with
        | nil => exact absurd rfl hne
        | cons c rest' =>
            obtain ⟨m, hm⟩ := toAssignmentGo_isSome (hcf c (by simp))
            simp only [satisfyGo] at h
            rw [show c.to_assignment = some m from hm] at h
            cases h
      · rintro ⟨i, hi, _⟩
        simp at hi
  | cons cl rest ih =>
      intro frontier hne hcf
      simp only [satisfyGo]
      by_cases he : (stepFrontier frontier cl).isEmpty
      · rw [if_pos he]
        have he' : stepFrontier frontier cl = [] := by
          rwa [List.isEmpty_iff] at he
        constructor
        · intro _
          exact ⟨0, by simp, by simpa using he'⟩
        · intro _
          rfl
      · rw [if_neg he]
        have he' : stepFrontier frontier cl ≠ [] := by
          intro h0
          rw [← List.isEmpty_iff] at h0
          exact he h0
        have hcf' : ∀ c ∈ stepFrontier frontier cl, conflictFreeCS c := by
          intro e hex
          obtain ⟨a, ha, hea⟩ := mem_stepFrontier.mp hex
          exact propagate_conflictFree (hcf a ha) hea
        rw [ih _ he' hcf']
        constructor
        · rintro ⟨i, hi, hfold⟩
          refine ⟨i + 1, by simpa using Nat.succ_lt_succ hi, ?_⟩
          simpa using hfold
        · rintro ⟨i, hi, hfold⟩
          cases i with
          | zero => exact absurd (by simpa using hfold) he'
          | succ j =>
              refine ⟨j, by simpa using Nat.lt_of_succ_lt_succ hi, ?_⟩
              simpa using hfold

theorem get_state_empty (v : Int) :
    ConstraintSet.get_state ⟨[]⟩ v = VarState.UNKNOWN := rfl

theorem holdsClause_clauseSatisfied {c : ConstraintSet} {m : Assignment}
    {cl : Clause} (hm : c.to_assignment = some m) (hh : holdsClause c cl) :
    clauseSatisfied m cl := by
  unfold ConstraintSet.to_assignment at hm
  unfold holdsClause at hh
  unfold clauseSatisfied
  rcases hh with ⟨v, hv, hs⟩ | ⟨v, hv, hs⟩
  · refine Or.inl ⟨v, hv, ?_⟩
    unfold ConstraintSet.get_state at hs
    cases hl : c.var_states.lookup v with
    | none =>
        rw [hl] at hs
        cases hs
    | some s =>
        rw [hl] at hs
        simp at hs
        rw [toAssignmentGo_lookup hm v, hl, hs]
        simp [stateDefault]
  · refine Or.inr ⟨v, hv, ?_⟩
    unfold ConstraintSet.get_state at hs
    cases hl : c.var_states.lookup v with
    | none =>
        rw [hl] at hs
        cases hs
    | some s =>
        rw [hl] at hs
        simp at hs
        rw [toAssignmentGo_lookup hm v, hl, hs]
        simp [stateDefault]

theorem satisfy_cnf_sound_aux {clauses : List Clause} {m : Assignment}
    (h : satisfy_cnf clauses = some m) : ∀ cl ∈ clauses, clauseSatisfied m cl := by
  cases clauses with
  | nil => intro cl hcl; cases hcl
  | cons cl0 rest =>
      unfold satisfy_cnf at h
      rw [if_neg (by simp)] at h
      obtain ⟨a, c, _, hassign, hholds, _, _⟩ := satisfyGo_sound _ _ _ h
      intro cl hcl
      exact holdsClause_clauseSatisfied hassign (hholds cl hcl)

theorem emptyCS_consistentWith (A : Int → Bool) : consistentWith ⟨[]⟩ A := by
  intro v
  constructor <;> intro h <;> rw [get_state_empty] at h <;> cases h

theorem satisfy_cnf_complete_aux {clauses : List Clause} {A : Int → Bool}
    (hA : ∀ cl ∈ clauses, satisfiesClause A cl) :
    ∃ m, satisfy_cnf clauses = some m := by
  cases clauses with
  | nil => exact ⟨[], rfl⟩
  | cons cl0 rest =>
      unfold satisfy_cnf
      rw [if_neg (by simp)]
      refine satisfyGo_complete _ [⟨[]⟩] A hA ?_ ⟨⟨[]⟩, by simp, emptyCS_consistentWith A⟩
      intro c hc
      rcases List.mem_cons.mp hc with rfl | hc
      · exact emptyCS_conflictFree
      · cases hc

theorem satisfy_cnf_keys_aux {clauses : List Clause} {m : Assignment}
    (h : satisfy_cnf clauses = some m) : ∀ q ∈ m, mentionedIn q.1 clauses := by
  cases clauses with
  | nil =>
      unfold satisfy_cnf at h
      rw [if_pos (by simp)] at h
      cases h
      intro q hq
      cases hq
  | cons cl0 rest =>
      unfold satisfy_cnf at h
      rw [if_neg (by simp)] at h
      obtain ⟨a, c, ha, hassign, _, _, hkeys⟩ := satisfyGo_sound _ _ _ h
      intro q hq
      obtain ⟨s, hs⟩ := toAssignmentGo_keys hassign q hq
      rcases hkeys (q.1, s) hs with hmem | hment
      · rcases List.mem_cons.mp ha with rfl | ha'
        · cases hmem
        · cases ha'
      · exact hment

theorem propagate_empty_clause (c : ConstraintSet) :
    propagate_clause ([], []) c = [] := by
  simp only [propagate_clause, ConstraintSet.copy]
  rw [if_neg (by simp), if_neg (by simp)]
  simp

theorem satisfyGo_none_of_empty_clause :
    ∀ (rest : List Clause) (frontier : List ConstraintSet),
    ([], []) ∈ rest → satisfyGo rest frontier = none := by
  intro rest
  induction rest with
  | nil => intro frontier h; cases h
  | cons cl rest ih =>
      intro frontier h
      rcases List.mem_cons.mp h with rfl | h
      · have hstep : stepFrontier frontier ([], []) = [] := by
          unfold stepFrontier
          rw [List.flatten_eq_nil_iff]
          intro l hl
          obtain ⟨a, _, rfl⟩ := List.mem_map.mp hl
          exact propagate_empty_clause a
        simp only [satisfyGo]
        rw [if_pos (by rw [hstep]; rfl)]
      · simp only [satisfyGo]
        by_cases he : (stepFrontier frontier cl).isEmpty
        · rw [if_pos he]
        · rw [if_neg he]
          exact ih _ h

/-- C1, satisfiability soundness: whenever `satisfy_cnf` returns a mapping
(not `None`), every clause of the input contains a positive literal whose
variable the mapping sends to `true`, or a negative literal whose variable
the mapping sends to `false`. -/
theorem satisfy_cnf_sound {clauses : List Clause} {m : Assignment}
    (h : satisfy_cnf clauses = some m) : ∀ cl ∈ clauses, clauseSatisfied m cl :=
  satisfy_cnf_sound_aux h

/-- Witness for C1 at the concrete formula `[(x1 ∨ x2), (¬x1 ∨ ¬x2)]`. -/
theorem satisfy_cnf_sound_witness :
    clauseSatisfied [(1, true), (2, false)] ([1, 2], []) ∧
    clauseSatisfied [(1, true), (2, false)] ([], [1, 2]) := by
  have h := @satisfy_cnf_sound [([1, 2], []), ([], [1, 2])] [(1, true), (2, false)]
    (by decide)
  exact ⟨h ([1, 2], []) (by decide), h ([], [1, 2]) (by decide)⟩

/-- C3 counterexample: on the one-clause formula `(x1 ∨ x2)` the solver
returns the mapping `{1: True}`, whose domain omits the mentioned
variable `2`: the returned mapping is not total over the formula's
variables. -/
theorem result_totality_counterexample :
    satisfy_cnf [([1, 2], [])] = some [(1, true)] ∧
    (2 : Int) ∈ ([1, 2] : List Int) ∧
    List.lookup (2 : Int) [((1 : Int), true)] = none := by decide

/-- C3 amended: the domain of a returned mapping is contained in (but need
not cover) the variables mentioned in the input clauses; every variable in
the mapping appears in some clause. -/
theorem satisfy_cnf_domain_mentioned {clauses : List Clause} {m : Assignment}
    (h : satisfy_cnf clauses = some m) : ∀ q ∈ m, mentionedIn q.1 clauses :=
  satisfy_cnf_keys_aux h

/-- Witness for the amended C3. -/
theorem satisfy_cnf_domain_mentioned_witness :
    mentionedIn 1 [([1, 2], [])] :=
  @satisfy_cnf_domain_mentioned [([1, 2], [])] [(1, true)]
    (by decide) (1, true) (by decide)

/-- C5, no-conflict frontier invariant: every constraint set in the
frontier at any point of `satisfy_cnf` maps no variable to `CONFLICT`,
and `propagate_clause` on a conflict-free input returns only
conflict-free constraint sets. -/
theorem frontier_no_conflict :
    (∀ (cls : List Clause), ∀ c ∈ frontierAfter cls,
      ∀ v, c.get_state v ≠ VarState.CONFLICT) ∧
    (∀ (cl : Clause) (a : ConstraintSet),
      (∀ v, a.get_state v ≠ VarState.CONFLICT) →
      ∀ d ∈ propagate_clause cl a, ∀ v, d.get_state v ≠ VarState.CONFLICT) := by
  constructor
  · intro cls c hc v
    refine get_state_ne_conflict ?_ v
    refine foldl_stepFrontier_conflictFree cls [⟨[]⟩] ?_ c hc
    intro e he
    rcases List.mem_cons.mp he with rfl | he'
    · exact emptyCS_conflictFree
    · cases he'
  · intro cl a ha d hd v
    rcases propagate_mem_cases hd with ⟨_, rfl⟩ | ⟨_, hcase⟩
    · exact ha v
    · rcases hcase with ⟨w, _, _, rfl⟩ | ⟨w, _, _, rfl⟩ <;>
        rw [get_state_listSet] <;> by_cases hvw : v = w
      · rw [if_pos hvw]
        simp
      · rw [if_neg hvw]
        exact ha v
      · rw [if_pos hvw]
        simp
      · rw [if_neg hvw]
        exact ha v

/-- Witness for C5 at a concrete frontier member and propagation. -/
theorem frontier_no_conflict_witness :
    ConstraintSet.get_state ⟨[(1, VarState.MUST_TRUE)]⟩ 1 ≠ VarState.CONFLICT ∧
    ConstraintSet.get_state ⟨[(1, VarState.MUST_TRUE), (2, VarState.MUST_FALSE)]⟩ 2 ≠
      VarState.CONFLICT :=
  ⟨frontier_no_conflict.1 [([1], [])] ⟨[(1, VarState.MUST_TRUE)]⟩ (by decide) 1,
   frontier_no_conflict.2 ([], [2]) ⟨[(1, VarState.MUST_TRUE)]⟩
     (by
       intro v
       unfold ConstraintSet.get_state
       rw [lookup_cons_eq_if]
       by_cases h : v = 1 <;> simp [h, List.lookup])
     ⟨[(1, VarState.MUST_TRUE), (2, VarState.MUST_FALSE)]⟩ (by decide) 2⟩

/-- C6, already-satisfied short-circuit: when the ancestor already forces
some positive literal to `MUST_TRUE` or some negative literal to
`MUST_FALSE`, `propagate_clause` returns exactly the one-element list
holding the ancestor's variable-state mapping unchanged. -/
theorem propagate_clause_already_satisfied {cl : Clause} {c : ConstraintSet}
    (h : (∃ v ∈ cl.1, c.get_state v = VarState.MUST_TRUE) ∨
      (∃ v ∈ cl.2, c.get_state v = VarState.MUST_FALSE)) :
    propagate_clause cl c = [c] :=
  propagate_clause_of_holds h

/-- Witness for C6 on a concrete satisfied clause. -/
theorem propagate_clause_already_satisfied_witness :
    propagate_clause ([1], [2]) ⟨[(2, VarState.MUST_FALSE)]⟩ =
      [⟨[(2, VarState.MUST_FALSE)]⟩] :=
  propagate_clause_already_satisfied (by decide)

/-- C7, empty clause is always-false: `propagate_clause` on a clause with
no literals returns the empty list for every conflict-free ancestor, and
`satisfy_cnf` returns `None` on any clause list containing such a
clause. -/
theorem empty_clause_always_false :
    (∀ c : ConstraintSet, (∀ v, c.get_state v ≠ VarState.CONFLICT) →
      propagate_clause ([], []) c = []) ∧
    (∀ cls : List Clause, ([], []) ∈ cls → satisfy_cnf cls = none) := by
  constructor
  · intro c _
    exact propagate_empty_clause c
  · intro cls hmem
    unfold satisfy_cnf
    rw [if_neg (by rintro h; rw [List.isEmpty_iff] at h; rw [h] at hmem; cases hmem)]
    exact satisfyGo_none_of_empty_clause cls [⟨[]⟩] hmem

/-- Witness for C7 at a concrete constraint set and clause list. -/
theorem empty_clause_always_false_witness :
    propagate_clause ([], []) ⟨[(1, VarState.MUST_TRUE)]⟩ = [] ∧
    satisfy_cnf [([1], []), ([], [])] = none :=
  ⟨empty_clause_always_false.1 ⟨[(1, VarState.MUST_TRUE)]⟩
     (by
       intro v
       unfold ConstraintSet.get_state
       rw [lookup_cons_eq_if]
       by_cases h : v = 1 <;> simp [h, List.lookup]),
   empty_clause_always_false.2 [([1], []), ([], [])] (by decide)⟩

/-- C8, empty formula: `satisfy_cnf` on the empty clause list returns the
empty assignment, not `None`. -/
theorem satisfy_cnf_empty_formula : satisfy_cnf [] = some [] := rfl

/-- C10, monotonic forcing: every constraint set returned by
`propagate_clause` agrees with the ancestor on every variable the
ancestor maps to `MUST_TRUE` or `MUST_FALSE`. -/
theorem propagate_clause_monotonic_forcing {cl : Clause} {c : ConstraintSet} :
    ∀ d ∈ propagate_clause cl c, ∀ v,
      (c.get_state v = VarState.MUST_TRUE → d.get_state v = VarState.MUST_TRUE) ∧
      (c.get_state v = VarState.MUST_FALSE → d.get_state v = VarState.MUST_FALSE) :=
  fun _ hd => propagate_extendsForced hd

/-- Witness for C10 on a concrete branching propagation. -/
theorem propagate_clause_monotonic_forcing_witness :
    (ConstraintSet.get_state ⟨[(1, VarState.MUST_TRUE)]⟩ 1 = VarState.MUST_TRUE →
      ConstraintSet.get_state ⟨[(1, VarState.MUST_TRUE), (2, VarState.MUST_TRUE)]⟩ 1 =
        VarState.MUST_TRUE) ∧
    (ConstraintSet.get_state ⟨[(1, VarState.MUST_TRUE)]⟩ 1 = VarState.MUST_FALSE →
      ConstraintSet.get_state ⟨[(1, VarState.MUST_TRUE), (2, VarState.MUST_TRUE)]⟩ 1 =
        VarState.MUST_FALSE) :=
  @propagate_clause_monotonic_forcing ([2], []) ⟨[(1, VarState.MUST_TRUE)]⟩
    ⟨[(1, VarState.MUST_TRUE), (2, VarState.MUST_TRUE)]⟩ (by decide) 1

/-- C4, frontier monotonic emptying and immediate halt: `satisfy_cnf`
returns `None` exactly when the frontier is empty after processing some
clause prefix; an empty frontier stays empty under any further clauses;
and as soon as one transition empties the frontier the loop returns
`None` without looking at the remaining clauses (the result is the same
whatever those clauses are). `None` is an ordinary return value of the
total function `satisfy_cnf`. -/
theorem satisfy_cnf_none_iff_frontier_empties :
    (∀ cls : List Clause, satisfy_cnf cls = none ↔
      ∃ i < cls.length, frontierAfter (cls.take (i + 1)) = []) ∧
    (∀ cls more : List Clause,
      frontierAfter cls = [] → frontierAfter (cls ++ more) = []) ∧
    (∀ (cl : Clause) (rest rest' : List Clause) (frontier : List ConstraintSet),
      stepFrontier frontier cl = [] →
      satisfyGo (cl :: rest) frontier = none ∧
      satisfyGo (cl :: rest) frontier = satisfyGo (cl :: rest') frontier) := by
  refine ⟨?_, ?_, ?_⟩
  · intro cls
    cases cls with
    | nil =>
        constructor
        · intro h
          cases h
        · rintro ⟨i, hi, _⟩
          simp at hi
    | cons cl rest =>
        unfold satisfy_cnf
        rw [if_neg (by simp)]
        rw [satisfyGo_none_iff (cl :: rest) [⟨[]⟩] (by simp) ?_]
        · unfold frontierAfter
          rfl
        · intro c hc
          rcases List.mem_cons.mp hc with rfl | hc'
          · exact emptyCS_conflictFree
          · cases hc'
  · intro cls more h
    unfold frontierAfter at h ⊢
    rw [List.foldl_append, h]
    exact foldl_stepFrontier_nil more
  · intro cl rest rest' frontier h
    constructor
    · simp only [satisfyGo]
      rw [if_pos (by rw [h]; rfl)]
    · simp only [satisfyGo]
      rw [if_pos (by rw [h]; rfl), if_pos (by rw [h]; rfl)]

/-- Witness for C4 on the concrete formula `[x1, ¬x1, x2]`, whose frontier
empties at the second clause. -/
theorem satisfy_cnf_none_iff_frontier_empties_witness :
    satisfy_cnf [([1], []), ([], [1]), ([2], [])] = none ∧
    frontierAfter ([([1], []), ([], [1])] ++ [([2], [])]) = [] ∧
    satisfyGo [([], [1]), ([2], [])] [⟨[(1, VarState.MUST_TRUE)]⟩] = none := by
  refine ⟨?_, ?_, ?_⟩
  · exact (satisfy_cnf_none_iff_frontier_empties.1 [([1], []), ([], [1]), ([2], [])]).mpr
      ⟨1, by decide, by decide⟩
  · exact satisfy_cnf_none_iff_frontier_empties.2.1 [([1], []), ([], [1])] [([2], [])]
      (by decide)
  · exact (satisfy_cnf_none_iff_frontier_empties.2.2 ([], [1]) [([2], [])] []
      [⟨[(1, VarState.MUST_TRUE)]⟩] (by decide)).1

theorem processLiterals_error_iff : ∀ (lits : List Gate) (posAcc negAcc : List Int),
    (∃ e, processLiterals lits posAcc negAcc = Except.error e) ↔
      lits.any (fun l => !goodLiteral l) = true := by
  intro lits
  induction lits with
  | nil =>
      intro posAcc negAcc
      simp [processLiterals]
  | cons l rest ih =>
      intro posAcc negAcc
      by_cases hin : l.gate_type = "INPUT"
      · have hg : goodLiteral l = true := by simp [goodLiteral, hin]
        simp only [processLiterals, if_pos hin, List.any_cons, hg]
        rw [ih]
        simp
      · by_cases hnot : l.gate_type = "NOT"
        · cases hi : l.inputs with
          | nil =>
              have hg : goodLiteral l = false := by
                simp [goodLiteral, hin, hnot, hi]
              simp only [processLiterals, if_neg hin, if_pos hnot, hi,
                List.any_cons, hg]
              simp
          | cons first rest' =>
              by_cases hfi : first.gate_type = "INPUT"
              · have hg : goodLiteral l = true := by
                  simp [goodLiteral, hin, hnot, hi, hfi]
                simp only [processLiterals, if_neg hin, if_pos hnot, hi,
                  List.any_cons, hg]
                rw [if_neg (by simp [hfi])]
                rw [ih]
                simp
              · have hg : goodLiteral l = false := by
                  simp [goodLiteral, hin, hnot, hi, hfi]
                simp only [processLiterals, if_neg hin, if_pos hnot, hi,
                  List.any_cons, hg]
                rw [if_pos (by simp [hfi])]
                simp
        · have hg : goodLiteral l = false := by
            simp [goodLiteral, hin, hnot]
          simp only [processLiterals, if_neg hin, if_neg hnot, List.any_cons, hg]
          simp

theorem processLiterals_ok : ∀ (lits : List Gate) (posAcc negAcc : List Int),
    (∀ l ∈ lits, goodLiteral l = true) →
    processLiterals lits posAcc negAcc = Except.ok
      (posAcc ++ lits.filterMap (fun l =>
        if l.gate_type = "INPUT" then some l.index else none),
       negAcc ++ lits.filterMap (fun l =>
        if l.gate_type = "NOT" then (l.inputs.head?).map Gate.index else none)) := by
  intro lits
  induction lits with
  | nil =>
      intro posAcc negAcc _
      simp [processLiterals]
  | cons l rest ih =>
      intro posAcc negAcc hgood
      have hl := hgood l (by simp)
      have hrest : ∀ l' ∈ rest, goodLiteral l' = true :=
        fun l' h' => hgood l' (List.mem_cons_of_mem _ h')
      by_cases hin : l.gate_type = "INPUT"
      · simp only [processLiterals, if_pos hin]
        rw [ih _ _ hrest]
        simp [hin, show l.gate_type ≠ "NOT" from by rw [hin]; decide]
      · by_cases hnot : l.gate_type = "NOT"
        · cases hi : l.inputs with
          | nil =>
              rw [goodLiteral, if_neg hin, if_pos hnot, hi] at hl
              cases hl
          | cons first rest' =>
              by_cases hfi : first.gate_type = "INPUT"
              · simp only [processLiterals, if_neg hin, if_pos hnot, hi]
                rw [if_neg (by simp [hfi])]
                rw [ih _ _ hrest]
                simp [hin, hnot, hi]
              · rw [goodLiteral, if_neg hin, if_pos hnot, hi] at hl
                simp [hfi] at hl
        · rw [goodLiteral, if_neg hin, if_neg hnot] at hl
          cases hl

theorem processClauses_error_iff : ∀ (cls : List Gate),
    (∃ e, processClauses cls = Except.error e) ↔
      cls.any (fun cl =>
        if cl.gate_type = "OR" then cl.inputs.any (fun l => !goodLiteral l)
        else true) = true := by
  intro cls
  induction cls with
  | nil => simp [processClauses]
  | cons cl rest ih =>
      by_cases hor : cl.gate_type = "OR"
      · simp only [processClauses]
        rw [if_neg (not_not_intro hor)]
        by_cases herr : cl.inputs.any (fun l => !goodLiteral l) = true
        · obtain ⟨e, he⟩ := (processLiterals_error_iff cl.inputs [] []).mpr herr
          rw [he]
          simp only [List.any_cons, if_pos hor, herr]
          simp
        · have hall : ∀ l ∈ cl.inputs, goodLiteral l = true := by
            intro l hl
            by_contra hbad
            exact herr (List.any_eq_true.mpr ⟨l, hl, by simp [hbad]⟩)
          rw [processLiterals_ok _ _ _ hall]
          simp only [List.any_cons, if_pos hor]
          rw [Bool.eq_false_iff.mpr herr]
          cases hpc : processClauses rest with
          | error e =>
              have hrest := ih.mp ⟨e, hpc⟩
              simp only [hpc, hrest]
              simp
          | ok others =>
              have hrest : (rest.any fun cl =>
                  if cl.gate_type = "OR" then cl.inputs.any (fun l => !goodLiteral l)
                  else true) = false := by
                rw [Bool.eq_false_iff]
                intro hr
                obtain ⟨e, he⟩ := ih.mpr hr
                rw [hpc] at he
                cases he
              simp only [hpc, hrest]
              simp
      · simp only [processClauses]
        rw [if_pos hor]
        simp only [List.any_cons, if_neg hor]
        simp

theorem processClauses_ok : ∀ (cls : List Gate),
    (∀ cl ∈ cls, cl.gate_type = "OR" ∧ ∀ l ∈ cl.inputs, goodLiteral l = true) →
    processClauses cls = Except.ok (cls.map clausePairOf) := by
  intro cls
  induction cls with
  | nil => intro _; rfl
  | cons cl rest ih =>
      intro hgood
      obtain ⟨hor, hlits⟩ := hgood cl (by simp)
      simp only [processClauses]
      rw [if_neg (not_not_intro hor)]
      rw [processLiterals_ok _ _ _ hlits]
      rw [ih (fun cl' h' => hgood cl' (List.mem_cons_of_mem _ h'))]
      simp [clausePairOf]

/-- C9 counterexample: on `AND [OR [NOT []]]` — a NOT gate with no inputs
under an OR — `gate_to_cnf_clauses` fails with the IndexError coming from
`literal.inputs[0]`, not with a ValueError as the claim requires for a
literal that is neither an INPUT nor a NOT of an INPUT. -/
theorem gate_to_cnf_valueerror_counterexample :
    gate_to_cnf_clauses (Gate.mk "AND" [Gate.mk "OR" [Gate.mk "NOT" [] 0] 0] 0) =
      Except.error PyErr.indexError := rfl

/-- C9 amended: `gate_to_cnf_clauses` fails if and only if the top gate is
not an AND, some child is not an OR, or some child of an OR is neither an
INPUT gate nor a NOT gate whose first input is an INPUT gate (the error
is a ValueError except that a NOT gate with no inputs raises IndexError);
otherwise it returns one (positives, negatives) pair per OR child, in
order. -/
theorem gate_to_cnf_error_characterization (g : Gate) :
    ((∃ e, gate_to_cnf_clauses g = Except.error e) ↔ malformedCnf g = true) ∧
    (malformedCnf g = false →
      gate_to_cnf_clauses g = Except.ok (g.inputs.map clausePairOf)) := by
  by_cases hand : g.gate_type = "AND"
  · constructor
    · unfold gate_to_cnf_clauses
      rw [if_neg (not_not_intro hand)]
      unfold malformedCnf
      rw [if_pos hand]
      exact processClauses_error_iff g.inputs
    · intro hmal
      unfold malformedCnf at hmal
      rw [if_pos hand] at hmal
      unfold gate_to_cnf_clauses
      rw [if_neg (not_not_intro hand)]
      refine processClauses_ok g.inputs ?_
      intro cl hcl
      have hcl' : (if cl.gate_type = "OR"
          then cl.inputs.any (fun l => !goodLiteral l) else true) = false := by
        rw [List.any_eq_false] at hmal
        exact Bool.eq_false_iff.mpr (hmal cl hcl)
      by_cases hor : cl.gate_type = "OR"
      · rw [if_pos hor] at hcl'
        refine ⟨hor, ?_⟩
        intro l hl
        rw [List.any_eq_false] at hcl'
        have := hcl' l hl
        simpa using this
      · rw [if_neg hor] at hcl'
        cases hcl'
  · constructor
    · unfold gate_to_cnf_clauses
      rw [if_pos hand]
      unfold malformedCnf
      rw [if_neg hand]
      simp
    · intro hmal
      unfold malformedCnf at hmal
      rw [if_neg hand] at hmal
      cases hmal

/-- Witness for the amended C9 on a concrete well-formed CNF gate tree. -/
theorem gate_to_cnf_error_characterization_witness :
    gate_to_cnf_clauses (Gate.mk "AND"
      [Gate.mk "OR" [Gate.mk "INPUT" [] 1, Gate.mk "NOT" [Gate.mk "INPUT" [] 2] 0] 0] 0) =
      Except.ok [([1], [2])] :=
  (gate_to_cnf_error_characterization _).2 rfl

theorem mem_rangeIcc {a b v : Int} : v ∈ rangeIcc a b ↔ a ≤ v ∧ v ≤ b := by
  unfold rangeIcc
  constructor
  · intro hv
    obtain ⟨k, hk, rfl⟩ := List.mem_map.mp hv
    rw [List.mem_range] at hk
    omega
  · rintro ⟨h1, h2⟩
    refine List.mem_map.mpr ⟨(v - a).toNat, ?_, by omega⟩
    rw [List.mem_range]
    omega

theorem encode_inj {h a b a' b' : Int} (h1 : 1 ≤ b) (h2 : b ≤ h) (h3 : 1 ≤ b')
    (h4 : b' ≤ h) (heq : (a - 1) * h + b = (a' - 1) * h + b') : a = a' ∧ b = b' := by
  have key : (a - a') * h = b' - b := by
    have h0 : (a - 1) * h + b - ((a' - 1) * h + b') = 0 := by rw [heq]; ring
    calc (a - a') * h = (a - 1) * h + b - ((a' - 1) * h + b') + (b' - b) := by ring
    _ = 0 + (b' - b) := by rw [h0]
    _ = b' - b := by ring
  rcases lt_trichotomy a a' with hlt | heqa | hgt
  · exfalso
    have h5 : (1 : Int) ≤ a' - a := by omega
    have h6 : h ≤ (a' - a) * h := le_mul_of_one_le_left (by omega) h5
    have h7 : (a' - a) * h = b - b' := by
      calc (a' - a) * h = -((a - a') * h) := by ring
      _ = -(b' - b) := by rw [key]
      _ = b - b' := by ring
    omega
  · subst heqa
    refine ⟨rfl, ?_⟩
    have : (0 : Int) = b' - b := by
      calc (0 : Int) = (a - a) * h := by ring
      _ = b' - b := key
    omega
  · exfalso
    have h5 : (1 : Int) ≤ a - a' := by omega
    have h6 : h ≤ (a - a') * h := le_mul_of_one_le_left (by omega) h5
    omega

theorem pigeon_clause_mem {p h i : Int} (h1 : 1 ≤ i) (h2 : i ≤ p) :
    ((rangeIcc 1 h).map (fun j => (i - 1) * h + j), ([] : List Int)) ∈
      generate_pigeonhole p h := by
  simp only [generate_pigeonhole]
  refine List.mem_append_left _ ?_
  exact List.mem_map.mpr ⟨i, mem_rangeIcc.mpr ⟨h1, h2⟩, rfl⟩

theorem hole_clause_mem {p h hh p1 p2 : Int} (hh1 : 1 ≤ hh) (hh2 : hh ≤ h)
    (hp1 : 1 ≤ p1) (hlt : p1 < p2) (hp2 : p2 ≤ p) :
    (([] : List Int), [(p1 - 1) * h + hh, (p2 - 1) * h + hh]) ∈
      generate_pigeonhole p h := by
  simp only [generate_pigeonhole]
  refine List.mem_append_right _ ?_
  rw [List.mem_flatten]
  refine ⟨_, List.mem_map.mpr ⟨hh, mem_rangeIcc.mpr ⟨hh1, hh2⟩, rfl⟩, ?_⟩
  rw [List.mem_flatten]
  refine ⟨_, List.mem_map.mpr ⟨p1, mem_rangeIcc.mpr ⟨hp1, by omega⟩, rfl⟩, ?_⟩
  exact List.mem_map.mpr ⟨p2, mem_rangeIcc.mpr ⟨by omega, hp2⟩, rfl⟩

theorem gen_mem_cases {p h : Int} {cl : Clause}
    (hcl : cl ∈ generate_pigeonhole p h) :
    (∃ i, 1 ≤ i ∧ i ≤ p ∧
      cl = ((rangeIcc 1 h).map (fun j => (i - 1) * h + j), ([] : List Int))) ∨
    (∃ hh p1 p2, 1 ≤ hh ∧ hh ≤ h ∧ 1 ≤ p1 ∧ p1 < p2 ∧ p2 ≤ p ∧
      cl = (([] : List Int), [(p1 - 1) * h + hh, (p2 - 1) * h + hh])) := by
  simp only [generate_pigeonhole] at hcl
  rcases List.mem_append.mp hcl with hm | hm
  · obtain ⟨i, hi, rfl⟩ := List.mem_map.mp hm
    rw [mem_rangeIcc] at hi
    exact Or.inl ⟨i, hi.1, hi.2, rfl⟩
  · rw [List.mem_flatten] at hm
    obtain ⟨L, hL, hclL⟩ := hm
    obtain ⟨hh, hhmem, rfl⟩ := List.mem_map.mp hL
    rw [List.mem_flatten] at hclL
    obtain ⟨L2, hL2, hclL2⟩ := hclL
    obtain ⟨p1, hp1mem, rfl⟩ := List.mem_map.mp hL2
    obtain ⟨p2, hp2mem, rfl⟩ := List.mem_map.mp hclL2
    rw [mem_rangeIcc] at hhmem hp1mem hp2mem
    exact Or.inr ⟨hh, p1, p2, hhmem.1, hhmem.2, hp1mem.1, by omega, by omega, rfl⟩

theorem clauseSatisfied_total {m : Assignment} {cl : Clause}
    (h : clauseSatisfied m cl) :
    satisfiesClause (fun v => (m.lookup v).getD true) cl := by
  unfold clauseSatisfied at h
  unfold satisfiesClause
  rcases h with ⟨v, hv, hl⟩ | ⟨v, hv, hl⟩
  · refine Or.inl ⟨v, hv, ?_⟩
    show (List.lookup v m).getD true = true
    rw [hl]
    rfl
  · refine Or.inr ⟨v, hv, ?_⟩
    show (List.lookup v m).getD true = false
    rw [hl]
    rfl

theorem pigeonhole_unsat_math {p h : Int} (hh : 1 ≤ h) (hlt : h < p)
    (A : Int → Bool) (hA : ∀ cl ∈ generate_pigeonhole p h, satisfiesClause A cl) :
    False := by
  have Hpig : ∀ i ∈ Finset.Icc (1 : Int) p, ∃ j, j ∈ Finset.Icc (1 : Int) h ∧
      A ((i - 1) * h + j) = true := by
    intro i hi
    rw [Finset.mem_Icc] at hi
    have hcl := hA _ (pigeon_clause_mem hi.1 hi.2)
    unfold satisfiesClause at hcl
    rcases hcl with ⟨v, hv, hAv⟩ | ⟨v, hv, _⟩
    · obtain ⟨j, hj, rfl⟩ := List.mem_map.mp hv
      rw [mem_rangeIcc] at hj
      exact ⟨j, Finset.mem_Icc.mpr hj, hAv⟩
    · cases hv
  have Hpig' : ∀ i : Int, ∃ j, i ∈ Finset.Icc (1 : Int) p →
      (j ∈ Finset.Icc (1 : Int) h ∧ A ((i - 1) * h + j) = true) := by
    intro i
    by_cases hi : i ∈ Finset.Icc (1 : Int) p
    · obtain ⟨j, hj⟩ := Hpig i hi
      exact ⟨j, fun _ => hj⟩
    · exact ⟨1, fun h' => absurd h' hi⟩
  choose f hf using Hpig'
  have hmaps : ∀ i ∈ Finset.Icc (1 : Int) p, f i ∈ Finset.Icc (1 : Int) h :=
    fun i hi => (hf i hi).1
  have hcard : (Finset.Icc (1 : Int) h).card < (Finset.Icc (1 : Int) p).card := by
    rw [Int.card_Icc, Int.card_Icc]
    omega
  obtain ⟨x, hx, y, hy, hxy, hfeq⟩ :=
    Finset.exists_ne_map_eq_of_card_lt_of_maps_to hcard hmaps
  have hxb := Finset.mem_Icc.mp hx
  have hyb := Finset.mem_Icc.mp hy
  have hfb := Finset.mem_Icc.mp (hmaps x hx)
  have hAx : A ((x - 1) * h + f x) = true := (hf x hx).2
  have hAy : A ((y - 1) * h + f x) = true := by
    have := (hf y hy).2
    rwa [← hfeq] at this
  have key : ∀ (p1 p2 : Int), 1 ≤ p1 → p1 < p2 → p2 ≤ p →
      A ((p1 - 1) * h + f x) = true → A ((p2 - 1) * h + f x) = true → False := by
    intro p1 p2 hb1 hb2 hb3 hA1 hA2
    have hclause := hA _ (hole_clause_mem hfb.1 hfb.2 hb1 hb2 hb3)
    unfold satisfiesClause at hclause
    rcases hclause with ⟨v, hv, _⟩ | ⟨v, hv, hAv⟩
    · cases hv
    · rcases List.mem_cons.mp hv with rfl | hv'
      · rw [hA1] at hAv
        cases hAv
      · rcases List.mem_cons.mp hv' with rfl | hv''
        · rw [hA2] at hAv
          cases hAv
        · cases hv''
  rcases lt_or_gt_of_ne hxy with hlt2 | hgt2
  · exact key x y hxb.1 hlt2 hyb.2 hAx hAy
  · exact key y x hyb.1 hgt2 hxb.2 hAy hAx

theorem pigeonhole_sat_math {p h : Int} (hp : 1 ≤ p) (hph : p ≤ h) :
    ∀ cl ∈ generate_pigeonhole p h, satisfiesClause
      (fun v => decide (∃ i ∈ rangeIcc 1 p, v = (i - 1) * h + i)) cl := by
  intro cl hcl
  unfold satisfiesClause
  rcases gen_mem_cases hcl with ⟨i, hi1, hi2, rfl⟩ |
    ⟨hh, p1, p2, hb1, hb2, hb3, hb4, hb5, rfl⟩
  · refine Or.inl ⟨(i - 1) * h + i, ?_, ?_⟩
    · exact List.mem_map.mpr ⟨i, mem_rangeIcc.mpr ⟨hi1, by omega⟩, rfl⟩
    · show decide (∃ i' ∈ rangeIcc 1 p, (i - 1) * h + i = (i' - 1) * h + i') = true
      rw [decide_eq_true_iff]
      exact ⟨i, mem_rangeIcc.mpr ⟨hi1, hi2⟩, rfl⟩
  · by_cases hA1 : ∃ i ∈ rangeIcc 1 p, (p1 - 1) * h + hh = (i - 1) * h + i
    · obtain ⟨i1, hi1mem, heq1⟩ := hA1
      rw [mem_rangeIcc] at hi1mem
      have hdec1 := encode_inj hb1 hb2 hi1mem.1 (by omega) heq1
      refine Or.inr ⟨(p2 - 1) * h + hh, by simp, ?_⟩
      show decide (∃ i' ∈ rangeIcc 1 p, (p2 - 1) * h + hh = (i' - 1) * h + i') = false
      rw [decide_eq_false_iff_not]
      rintro ⟨i2, hi2mem, heq2⟩
      rw [mem_rangeIcc] at hi2mem
      have hdec2 := encode_inj hb1 hb2 hi2mem.1 (by omega) heq2
      omega
    · refine Or.inr ⟨(p1 - 1) * h + hh, by simp, ?_⟩
      show decide (∃ i' ∈ rangeIcc 1 p, (p1 - 1) * h + hh = (i' - 1) * h + i') = false
      rw [decide_eq_false_iff_not]
      exact hA1

/-- C2, pigeonhole correctness: for all integers `p ≥ 1` and `h ≥ 1`,
`satisfy_cnf` on `generate_pigeonhole p h` returns `None` when `p > h`,
and returns an assignment satisfying every generated clause when
`p ≤ h`. -/
theorem pigeonhole_correct (p h : Int) (hp : 1 ≤ p) (hh : 1 ≤ h) :
    (h < p → satisfy_cnf (generate_pigeonhole p h) = none) ∧
    (p ≤ h → ∃ m, satisfy_cnf (generate_pigeonhole p h) = some m ∧
      ∀ cl ∈ generate_pigeonhole p h, clauseSatisfied m cl) := by
  constructor
  · intro hlt
    cases hres : satisfy_cnf (generate_pigeonhole p h) with
    | none => rfl
    | some m =>
        exfalso
        have hsat := satisfy_cnf_sound_aux hres
        exact pigeonhole_unsat_math hh hlt _
          (fun cl hcl => clauseSatisfied_total (hsat cl hcl))
  · intro hph
    obtain ⟨m, hm⟩ := satisfy_cnf_complete_aux (pigeonhole_sat_math hp hph)
    exact ⟨m, hm, satisfy_cnf_sound_aux hm⟩

/-- Witness for C2 at `(p, h) = (2, 1)` (unsatisfiable) and `(1, 2)`
(satisfiable). -/
theorem pigeonhole_correct_witness :
    satisfy_cnf (generate_pigeonhole 2 1) = none ∧
    ∃ m, satisfy_cnf (generate_pigeonhole 1 2) = some m ∧
      ∀ cl ∈ generate_pigeonhole 1 2, clauseSatisfied m cl :=
  ⟨(pigeonhole_correct 2 1 (by decide) (by decide)).1 (by decide),
   (pigeonhole_correct 1 2 (by decide) (by decide)).2 (by decide)⟩
